import Mathlib

/-! The chat hub of `server.go`.

A shallow embedding of the hub in `server.go`: the name-keyed registry `s.clients`, the
fan-out `broadcast`, `addClient`, the three cases of the `select` loop of `serve`, and the
TCP accept loop. Everything the hub does to the outside world (a `write` on a client, a
line handed to the logger, a `close`, the start of a read goroutine) is appended to a
trace, so that the properties of the hub become properties of the trace and the registry.
-/

namespace Chat

/-! ## Participants and the registry -/

/-- Modelled from the spec: the `client` interface (`getName`, `write`, `read`, `close`) is
declared outside `server.go`. A participant is a connection identity together with its display
name, which does not change after construction. -/
structure client where
  conn : Nat
  name : String
deriving DecidableEq, Repr

/-- Modelled from the spec: `identify() -> name`, the stable display name used as registry key. -/
def client.getName (c : client) : String := c.name

/-- The Go map `map[string]client`, kept as a list of its entries. The list order is no
property of the map: every iteration asks `World.rangeOrder` for the order it visits. -/
abbrev Registry := List (String × client)

/-- The keys of the map. -/
def Registry.keys (m : Registry) : List String := m.map Prod.fst

/-- The values of the map. -/
def Registry.values (m : Registry) : List client := m.map Prod.snd

/-- Go `delete(m, k)`: removes the entry of `k`, a no-op when `k` is absent. -/
def Registry.delete (m : Registry) (k : String) : Registry :=
  m.filter (fun e => !(e.1 == k))

/-- Go `m[k] = v`: the entry of `k` is created, or replaced when `k` is already a key. -/
def Registry.set (m : Registry) (k : String) (v : client) : Registry :=
  (k, v) :: m.delete k

/-- Go `m[k]` with the comma-ok form: the value stored under `k`, if any. -/
def Registry.get? : Registry → String → Option client
  | [], _ => none
  | (k', v) :: rest, k => if k' = k then some v else Registry.get? rest k

/-- A well-formed registry: keys are unique (it is a map) and every participant is stored under
its own name (the only insertion in the program is `s.clients[c.getName()] = c`). -/
def Registry.WF (m : Registry) : Prop :=
  m.keys.Nodup ∧ ∀ e ∈ m, e.1 = e.2.getName

instance (m : Registry) : Decidable m.WF := by
  unfold Registry.WF; infer_instance

/-! ## Effects -/

/-- What the hub does to the outside world. -/
inductive Effect where
  /-- The call `c.write(msg)` and the error it returned (`none` is Go `nil`). -/
  | write (c : client) (msg : String) (err : Option String)
  /-- An entry written by `s.logger`: the text formatted by `Print`, `Println` or `Printf`, as
  `logEntry` terminates it. -/
  | log (line : String)
  /-- The statement `go c.read()`. -/
  | goRead (c : client)
  /-- The call `c.close()`. -/
  | close (c : client)
deriving DecidableEq, Repr

/-- The environment of the hub: the outcome of each `write` and the order in which a `range`
over the map visits its entries. Both may differ from one moment to the next, so both take the
number of effects performed so far. A `range` visits every entry exactly once. -/
structure World where
  writeErr : Nat → client → String → Option String
  rangeOrder : Nat → Registry → Registry
  range_perm : ∀ (t : Nat) (m : Registry), (rangeOrder t m).Perm m

/-- The texts written to participant `c` in a trace, in order, whether or not the write failed. -/
def received (c : client) : List Effect → List String
  | [] => []
  | Effect.write c' msg _ :: rest =>
      if c' = c then msg :: received c rest else received c rest
  | _ :: rest => received c rest

/-- All writes of a trace, in order: the participant and the text. -/
def writes : List Effect → List (client × String)
  | [] => []
  | Effect.write c msg _ :: rest => (c, msg) :: writes rest
  | _ :: rest => writes rest

/-- The errors returned by the failed writes of a trace, in order. -/
def writeFailures : List Effect → List String
  | [] => []
  | Effect.write _ _ (some e) :: rest => e :: writeFailures rest
  | _ :: rest => writeFailures rest

/-- The lines handed to the logger in a trace, in order. -/
def logged : List Effect → List String
  | [] => []
  | Effect.log line :: rest => line :: logged rest
  | _ :: rest => logged rest

/-- The participants on which `close` was called in a trace, in order. -/
def closed : List Effect → List client
  | [] => []
  | Effect.close c :: rest => c :: closed rest
  | _ :: rest => closed rest

/-! ## The server -/

/-- The help banner, `const chatHelp`. -/
def chatHelp : String :=
  "(chatbot): Hello, welcome to the chat room\nCommands:\n  /help    see this help message again (example: /help)\n\n"

/-- The hub state `server`: the registry `clients`, and the trace of the effects performed so
far (which holds what went to `logger`). The channels `newConn`, `msgRcv` and `disconnect` are
the event sequence given to `hub`. -/
structure server where
  clients : Registry
  trace : List Effect
deriving DecidableEq, Repr

/-- Appends one effect to the trace. -/
def server.emit (s : server) (e : Effect) : server :=
  { s with trace := s.trace ++ [e] }

/-- The entry `log.Logger.Output` writes for a text: the text, with a newline appended when it
does not end in one. The prefix and the time stamp of the logger are left out. -/
def logEntry (text : String) : String :=
  if text.data.getLast? = some '\n' then text else text ++ "\n"

/-- The log line of a failed write, `Println("Broadcast error: ", err.Error())`: `Println`
puts a blank between its operands and a newline at the end. -/
def broadcastError (e : String) : String := "Broadcast error: " ++ " " ++ e ++ "\n"

/-- One iteration of the loop of `broadcast`: `err := c.write(msg)`, and
`s.logger.Println("Broadcast error: ", err.Error())` when `err != nil`. -/
def writeTo (w : World) (msg : String) (s : server) (c : client) : server :=
  let err := w.writeErr s.trace.length c msg
  let s1 := s.emit (Effect.write c msg err)
  match err with
  | some e => s1.emit (Effect.log (logEntry (broadcastError e)))
  | none => s1

/-- The function `server.broadcast`: `for _, c := range s.clients` with `writeTo` as body. -/
def broadcast (w : World) (s : server) (msg : String) : server :=
  (w.rangeOrder s.trace.length s.clients).foldl (fun st e => writeTo w msg st e.2) s

/-- The text of the join notice built in `addClient`. -/
def joinNotice (name : String) : String :=
  "(chatbot): New user " ++ name ++ " has joined.\n"

/-- The text of the leave notice, `fmt.Sprintf("(chatbot): user %s left the chat\n", name)`. -/
def leftNotice (name : String) : String :=
  "(chatbot): user " ++ name ++ " left the chat\n"

/-- The function `server.addClient`. -/
def addClient (w : World) (s : server) (c : client) : server :=
  let s1 : server := { s with clients := s.clients.set c.getName c }
  let s2 := s1.emit (Effect.write c chatHelp (w.writeErr s1.trace.length c chatHelp))
  let s3 := broadcast w s2 (joinNotice c.getName)
  s3.emit (Effect.goRead c)

/-- The events the `select` of `serve` receives: a client on `s.newConn`, a text on `s.msgRcv`,
a client on `s.disconnect`. -/
inductive Event where
  | newConn (c : client)
  | msgRcv (msg : String)
  | disconnect (c : client)
deriving DecidableEq, Repr

/-- One turn of the `select` in `serve`. -/
def step (w : World) (s : server) : Event → server
  | Event.newConn c => addClient w s c
  | Event.msgRcv msg =>
      broadcast w (s.emit (Effect.log (logEntry ("Message received: " ++ msg)))) msg
  | Event.disconnect c =>
      let s1 := s.emit (Effect.log (logEntry ("Disconnected user " ++ c.getName ++ "\n")))
      let s2 := broadcast w s1 (leftNotice c.getName)
      let s3 : server := { s2 with clients := s2.clients.delete c.getName }
      s3.emit (Effect.close c)

/-- The loop `for { select { ... } }` of `serve`, run on the events it selects, in the order it
selects them. The loop has no exit; `hub` gives the state after a finite number of turns. -/
def hub (w : World) (events : List Event) (s : server) : server :=
  events.foldl (step w) s

/-- The state in which `serve` enters its loop: the server built by `ServeTCP` (empty registry)
after `s.logger.Println("Server started on ", port)`. -/
def started (port : String) : server :=
  (server.mk [] []).emit (Effect.log (logEntry ("Server started on " ++ " " ++ port ++ "\n")))

/-- The function `server.serve`, for a given outcome of `net.Listen` and the events selected
by its loop: the listen error is returned, otherwise the loop runs. -/
def serve (w : World) (listenErr : Option String) (port : String) (events : List Event) :
    Except String server :=
  match listenErr with
  | some err => Except.error err
  | none => Except.ok (hub w events (started port))

/-- The function `ServeTCP`. -/
def ServeTCP (w : World) (listenErr : Option String) (port : String) (events : List Event) :
    Except String server :=
  serve w listenErr port events

/-! ## The accept loop -/

/-- The two results of `server.Accept()`: the connection (`none` is Go `nil`) and the error. -/
structure AcceptResult where
  conn : Option Nat
  err : Option String
deriving DecidableEq, Repr

/-- What the accept goroutine does: a line to the logger, or a client sent on `s.newConn`. -/
inductive AcceptEffect where
  | log (line : String)
  | newConn (c : client)
deriving DecidableEq, Repr

/-- The goroutine `// TCP Server` of `serve`, run on the results of its calls of `Accept`.
The constructor `newTCPClient` is declared outside `server.go` and is a parameter. -/
def acceptLoop (newTCPClient : Option Nat → client) : List AcceptResult → List AcceptEffect
  | [] => []
  | r :: rest =>
      (match r.err with
        | some e => [AcceptEffect.log (logEntry (e ++ "\n"))]
        | none => [])
      ++ AcceptEffect.newConn (newTCPClient r.conn) :: acceptLoop newTCPClient rest

/-- The clients raised toward the hub by the accept loop. -/
def raised : List AcceptEffect → List client
  | [] => []
  | AcceptEffect.newConn c :: rest => c :: raised rest
  | _ :: rest => raised rest

/-! ## Event sequences -/

/-- The clients that arrive in an event sequence, in order. -/
def arrivals : List Event → List client
  | [] => []
  | Event.newConn c :: rest => c :: arrivals rest
  | _ :: rest => arrivals rest

/-- The event sequence holds no departure. -/
def noDeparture : List Event → Bool
  | [] => true
  | Event.disconnect _ :: _ => false
  | _ :: rest => noDeparture rest

/-- The last client of the list that bears the name `n`. -/
def lastNamed (n : String) : List client → Option client
  | [] => none
  | c :: rest =>
      match lastNamed n rest with
      | some c' => some c'
      | none => if c.getName = n then some c else none

/-- No participant arrives after its own departure has been processed. -/
def noArrivalAfterDeparture : List Event → Prop
  | [] => True
  | Event.disconnect c :: rest => c ∉ arrivals rest ∧ noArrivalAfterDeparture rest
  | _ :: rest => noArrivalAfterDeparture rest

instance : (es : List Event) → Decidable (noArrivalAfterDeparture es)
  | [] => isTrue trivial
  | Event.disconnect c :: rest =>
      have := instDecidableNoArrivalAfterDeparture rest
      (inferInstance : Decidable (c ∉ arrivals rest ∧ noArrivalAfterDeparture rest))
  | Event.newConn _ :: rest => instDecidableNoArrivalAfterDeparture rest
  | Event.msgRcv _ :: rest => instDecidableNoArrivalAfterDeparture rest

/-- The event is the arrival or the departure of a participant named `n`. -/
def touchesName (n : String) : Event → Bool
  | Event.newConn c => c.getName == n
  | Event.msgRcv _ => false
  | Event.disconnect c => c.getName == n

/-! ## Sample data -/

/-- A world in which every write succeeds and `range` visits the entries in list order. -/
def quietWorld : World :=
  ⟨fun _ _ _ => none, fun _ m => m, fun _ _ => List.Perm.refl _⟩

/-- A world in which every write to connection `2` fails with `broken pipe` and `range`
visits the entries in reverse list order. -/
def lossyWorld : World :=
  ⟨fun _ c _ => if c.conn = 2 then some "broken pipe" else none,
   fun _ m => m.reverse, fun _ m => List.reverse_perm m⟩

/-- Sample participants; the two `carl` share a name on different connections. -/
def alice : client := ⟨1, "alice"⟩
def bob : client := ⟨2, "bob"⟩
def carl1 : client := ⟨3, "carl"⟩
def carl2 : client := ⟨4, "carl"⟩

/-- A hub state with `alice` and `bob` registered. -/
def aliceAndBob : server := ⟨[("alice", alice), ("bob", bob)], []⟩

/-- A hub state with the first `carl` registered. -/
def onlyCarl : server := ⟨[("carl", carl1)], []⟩

/-! ## Projections of a trace -/

theorem received_append (c : client) (a b : List Effect) :
    received c (a ++ b) = received c a ++ received c b := by
  induction a with
  | nil => rfl
  | cons e rest ih =>
    cases e with
    | write c' msg err =>
      by_cases h : c' = c <;> simp [received, h, ih]
    | log line => simpa [received] using ih
    | goRead c' => simpa [received] using ih
    | close c' => simpa [received] using ih

theorem writes_append (a b : List Effect) : writes (a ++ b) = writes a ++ writes b := by
  induction a with
  | nil => rfl
  | cons e rest ih => cases e <;> simp [writes, ih]

theorem logged_append (a b : List Effect) : logged (a ++ b) = logged a ++ logged b := by
  induction a with
  | nil => rfl
  | cons e rest ih => cases e <;> simp [logged, ih]

theorem closed_append (a b : List Effect) : closed (a ++ b) = closed a ++ closed b := by
  induction a with
  | nil => rfl
  | cons e rest ih => cases e <;> simp [closed, ih]

theorem writeFailures_append (a b : List Effect) :
    writeFailures (a ++ b) = writeFailures a ++ writeFailures b := by
  induction a with
  | nil => rfl
  | cons e rest ih =>
    cases e with
    | write c msg err => cases err <;> simp [writeFailures, ih]
    | log line => simpa [writeFailures] using ih
    | goRead c => simpa [writeFailures] using ih
    | close c => simpa [writeFailures] using ih

/-! ## The loop of `broadcast` -/

theorem writeTo_clients (w : World) (msg : String) (s : server) (c : client) :
    (writeTo w msg s c).clients = s.clients := by
  unfold writeTo
  cases w.writeErr s.trace.length c msg <;> rfl

theorem writeTo_writes (w : World) (msg : String) (s : server) (c : client) :
    writes (writeTo w msg s c).trace = writes s.trace ++ [(c, msg)] := by
  unfold writeTo
  cases w.writeErr s.trace.length c msg <;> simp [server.emit, writes_append, writes]

theorem writeTo_received (w : World) (msg : String) (s : server) (c q : client) :
    received q (writeTo w msg s c).trace
      = received q s.trace ++ (if c = q then [msg] else []) := by
  unfold writeTo
  cases w.writeErr s.trace.length c msg <;>
    by_cases h : c = q <;> simp [server.emit, received_append, received, h]

theorem writeTo_closed (w : World) (msg : String) (s : server) (c : client) :
    closed (writeTo w msg s c).trace = closed s.trace := by
  unfold writeTo
  cases w.writeErr s.trace.length c msg <;> simp [server.emit, closed_append, closed]

theorem logEntry_newline (x : String) : logEntry (x ++ "\n") = x ++ "\n" := by
  unfold logEntry
  rw [if_pos]
  simp [String.data_append]

/-- The entry logged for a failed write: the label, two blanks, the error, a newline. -/
theorem logEntry_broadcastError (e : String) :
    logEntry (broadcastError e) = "Broadcast error:  " ++ e ++ "\n" := by
  unfold broadcastError
  rw [logEntry_newline]
  rfl

theorem writeTo_logged (w : World) (msg : String) (s : server) (c : client) :
    logged (writeTo w msg s c).trace
      = logged s.trace
        ++ (w.writeErr s.trace.length c msg).toList.map
            (fun e => "Broadcast error:  " ++ e ++ "\n") := by
  unfold writeTo
  cases h : w.writeErr s.trace.length c msg with
  | none => simp [server.emit, logged_append, logged]
  | some e => simp [server.emit, logged_append, logged, logEntry_broadcastError]

/-- The loop of `broadcast` over the entries `l`, from state `s`. -/
theorem fold_clients (w : World) (msg : String) (l : Registry) (s : server) :
    (l.foldl (fun st e => writeTo w msg st e.2) s).clients = s.clients := by
  induction l generalizing s with
  | nil => rfl
  | cons e rest ih => simp only [List.foldl_cons]; rw [ih, writeTo_clients]

theorem fold_writes (w : World) (msg : String) (l : Registry) (s : server) :
    writes (l.foldl (fun st e => writeTo w msg st e.2) s).trace
      = writes s.trace ++ l.map (fun e => (e.2, msg)) := by
  induction l generalizing s with
  | nil => simp
  | cons e rest ih => simp only [List.foldl_cons]; rw [ih, writeTo_writes]; simp

theorem fold_received (w : World) (msg : String) (q : client) (l : Registry) (s : server) :
    received q (l.foldl (fun st e => writeTo w msg st e.2) s).trace
      = received q s.trace ++ List.replicate (l.values.count q) msg := by
  induction l generalizing s with
  | nil => simp [Registry.values]
  | cons e rest ih =>
    simp only [List.foldl_cons]
    rw [ih, writeTo_received]
    by_cases h : e.2 = q
    · simp [Registry.values, h, List.replicate_succ]
    · simp [Registry.values, h, List.count_cons]

theorem fold_closed (w : World) (msg : String) (l : Registry) (s : server) :
    closed (l.foldl (fun st e => writeTo w msg st e.2) s).trace = closed s.trace := by
  induction l generalizing s with
  | nil => rfl
  | cons e rest ih => simp only [List.foldl_cons]; rw [ih, writeTo_closed]

theorem writeTo_failures (w : World) (msg : String) (s : server) (c : client) :
    writeFailures (writeTo w msg s c).trace
      = writeFailures s.trace ++ (w.writeErr s.trace.length c msg).toList := by
  unfold writeTo
  cases h : w.writeErr s.trace.length c msg <;>
    simp [server.emit, writeFailures_append, writeFailures]

/-- The loop logs one `Broadcast error` entry for each failed write, in order. -/
theorem fold_logged (w : World) (msg : String) (l : Registry) (s : server) :
    ∃ errs : List String,
      writeFailures (l.foldl (fun st e => writeTo w msg st e.2) s).trace
        = writeFailures s.trace ++ errs ∧
      logged (l.foldl (fun st e => writeTo w msg st e.2) s).trace
        = logged s.trace ++ errs.map (fun e => "Broadcast error:  " ++ e ++ "\n") := by
  induction l generalizing s with
  | nil => exact ⟨[], by simp, by simp⟩
  | cons e rest ih =>
    simp only [List.foldl_cons]
    obtain ⟨e2, h3, h4⟩ := ih (writeTo w msg s e.2)
    exact ⟨(w.writeErr s.trace.length e.2 msg).toList ++ e2,
      by rw [h3, writeTo_failures, List.append_assoc],
      by rw [h4, writeTo_logged, List.map_append, List.append_assoc]⟩

/-- When the outcome of a write of `msg` depends on the participant alone, the failures of the
loop are those of the entries it visits, in order, and so are the logged entries. -/
theorem fold_failures (w : World) (msg : String) (fails : client → Option String)
    (hst : ∀ (t : Nat) (c : client), w.writeErr t c msg = fails c) (l : Registry) (s : server) :
    writeFailures (l.foldl (fun st e => writeTo w msg st e.2) s).trace
      = writeFailures s.trace ++ l.filterMap (fun e => fails e.2) ∧
    logged (l.foldl (fun st e => writeTo w msg st e.2) s).trace
      = logged s.trace
        ++ (l.filterMap (fun e => fails e.2)).map
            (fun e => "Broadcast error:  " ++ e ++ "\n") := by
  induction l generalizing s with
  | nil => simp
  | cons e rest ih =>
    simp only [List.foldl_cons]
    rw [(ih _).1, (ih _).2, writeTo_failures, writeTo_logged, hst, List.append_assoc,
      List.append_assoc]
    cases h : fails e.2 <;> simp [List.filterMap_cons, h]

/-! ## `broadcast` -/

theorem broadcast_clients (w : World) (s : server) (msg : String) :
    (broadcast w s msg).clients = s.clients :=
  fold_clients w msg _ s

theorem broadcast_closed (w : World) (s : server) (msg : String) :
    closed (broadcast w s msg).trace = closed s.trace :=
  fold_closed w msg _ s

theorem broadcast_writes (w : World) (s : server) (msg : String) :
    ∃ order : Registry, order.Perm s.clients ∧
      writes (broadcast w s msg).trace = writes s.trace ++ order.map (fun e => (e.2, msg)) :=
  ⟨w.rangeOrder s.trace.length s.clients, w.range_perm _ _, fold_writes w msg _ s⟩

theorem broadcast_received_count (w : World) (s : server) (msg : String) (q : client) :
    received q (broadcast w s msg).trace
      = received q s.trace ++ List.replicate (s.clients.values.count q) msg := by
  unfold broadcast
  rw [fold_received]
  have hp : (w.rangeOrder s.trace.length s.clients).values.Perm s.clients.values :=
    (w.range_perm _ _).map Prod.snd
  rw [hp.count_eq]

theorem broadcast_logged (w : World) (s : server) (msg : String) :
    ∃ errs : List String,
      writeFailures (broadcast w s msg).trace = writeFailures s.trace ++ errs ∧
      logged (broadcast w s msg).trace
        = logged s.trace ++ errs.map (fun e => "Broadcast error:  " ++ e ++ "\n") :=
  fold_logged w msg _ s

/-! ## The registry -/

theorem Registry.WF.values_nodup {m : Registry} (h : m.WF) : m.values.Nodup := by
  have hk : m.keys = m.values.map client.getName := by
    unfold Registry.keys Registry.values
    rw [List.map_map]
    exact List.map_congr_left (fun e he => h.2 e he)
  have h1 := h.1
  rw [hk] at h1
  exact List.Nodup.of_map _ h1

theorem Registry.WF.count_values {m : Registry} (h : m.WF) (q : client) :
    m.values.count q = if q ∈ m.values then 1 else 0 := by
  by_cases hq : q ∈ m.values
  · rw [if_pos hq]; exact List.count_eq_one_of_mem h.values_nodup hq
  · rw [if_neg hq]; exact List.count_eq_zero_of_not_mem hq

theorem Registry.mem_delete {m : Registry} {k : String} {e : String × client} :
    e ∈ m.delete k ↔ e ∈ m ∧ e.1 ≠ k := by
  simp [Registry.delete]

theorem Registry.delete_of_not_mem {m : Registry} {k : String} (h : k ∉ m.keys) :
    m.delete k = m := by
  unfold Registry.delete
  rw [List.filter_eq_self]
  intro e he
  have : e.1 ≠ k := fun hk => h (hk ▸ List.mem_map_of_mem Prod.fst he)
  simpa using this

theorem Registry.not_mem_keys_delete (m : Registry) (k : String) : k ∉ (m.delete k).keys := by
  intro h
  obtain ⟨e, he, hk⟩ := List.mem_map.mp h
  exact (Registry.mem_delete.mp he).2 hk

theorem Registry.WF.delete {m : Registry} (h : m.WF) (k : String) : (m.delete k).WF := by
  refine ⟨?_, fun e he => h.2 e (Registry.mem_delete.mp he).1⟩
  unfold Registry.keys Registry.delete
  exact (List.filter_sublist _).map Prod.fst |>.nodup h.1

theorem Registry.WF.set {m : Registry} (h : m.WF) (c : client) : (m.set c.getName c).WF := by
  refine ⟨?_, ?_⟩
  · unfold Registry.set Registry.keys
    rw [List.map_cons, List.nodup_cons]
    exact ⟨Registry.not_mem_keys_delete m c.getName, (h.delete c.getName).1⟩
  · intro e he
    rcases List.mem_cons.mp he with rfl | he
    · rfl
    · exact (h.delete c.getName).2 e he

theorem Registry.get?_eq_some {m : Registry} (h : m.keys.Nodup) (k : String) (v : client) :
    m.get? k = some v ↔ (k, v) ∈ m := by
  induction m with
  | nil => simp [Registry.get?]
  | cons e rest ih =>
    obtain ⟨k', v'⟩ := e
    have hn : k' ∉ Registry.keys rest ∧ (Registry.keys rest).Nodup := by
      simpa [Registry.keys] using h
    by_cases hk : k' = k
    · subst hk
      have : (k', v) ∉ rest := fun hm => hn.1 (List.mem_map_of_mem Prod.fst hm)
      simp [Registry.get?, this, eq_comm]
    · have hk2 : ¬ k = k' := fun e => hk e.symm
      simp [Registry.get?, hk, hk2, ih hn.2]

theorem Registry.get?_eq_none {m : Registry} (k : String) :
    m.get? k = none ↔ k ∉ m.keys := by
  induction m with
  | nil => simp [Registry.get?, Registry.keys]
  | cons e rest ih =>
    obtain ⟨k', v'⟩ := e
    by_cases hk : k' = k
    · simp [Registry.get?, Registry.keys, hk]
    · have hk2 : ¬ k = k' := fun e => hk e.symm
      simpa [Registry.get?, Registry.keys, hk, hk2] using ih

theorem Registry.WF.mem_values_delete {m : Registry} (h : m.WF) (k : String) (q : client) :
    q ∈ (m.delete k).values ↔ q ∈ m.values ∧ q.getName ≠ k := by
  unfold Registry.values
  constructor
  · intro hq
    obtain ⟨e, he, rfl⟩ := List.mem_map.mp hq
    obtain ⟨hm, hk⟩ := Registry.mem_delete.mp he
    exact ⟨List.mem_map_of_mem Prod.snd hm, fun hn => hk ((h.2 e hm).trans hn)⟩
  · rintro ⟨hq, hk⟩
    obtain ⟨e, he, rfl⟩ := List.mem_map.mp hq
    exact List.mem_map_of_mem Prod.snd
      (Registry.mem_delete.mpr ⟨he, fun hn => hk ((h.2 e he).symm.trans hn)⟩)

theorem Registry.WF.mem_values_set {m : Registry} (h : m.WF) (c q : client) :
    q ∈ (m.set c.getName c).values ↔ q = c ∨ (q ∈ m.values ∧ q.getName ≠ c.getName) := by
  have hd := h.mem_values_delete c.getName q
  unfold Registry.values at hd ⊢
  unfold Registry.set
  rw [List.map_cons, List.mem_cons, hd]

theorem Registry.WF.eq_of_getName_eq {m : Registry} (h : m.WF) {p q : client}
    (hp : p ∈ m.values) (hq : q ∈ m.values) (hn : q.getName = p.getName) : q = p := by
  obtain ⟨e1, he1, rfl⟩ := List.mem_map.mp hp
  obtain ⟨e2, he2, rfl⟩ := List.mem_map.mp hq
  have hk : e2.1 = e1.1 := by rw [h.2 e1 he1, h.2 e2 he2]; exact hn
  have := List.inj_on_of_nodup_map h.1 he2 he1 hk
  rw [this]

theorem leftNotice_eq (n : String) :
    leftNotice n = "(chatbot): user " ++ n ++ " left the chat" ++ "\n" := by
  unfold leftNotice
  rw [String.append_assoc _ " left the chat" "\n"]
  rfl

theorem joinNotice_eq (n : String) :
    joinNotice n = "(chatbot): " ++ ("New user " ++ n ++ " has joined.") ++ "\n" := by
  unfold joinNotice
  simp only [String.append_assoc]
  rfl

theorem chatHelp_ne_joinNotice (n : String) : chatHelp ≠ joinNotice n := by
  intro h
  have h2 := congrArg (fun t => t.data.get? 11) h
  simp [joinNotice, chatHelp, String.data_append] at h2

/-! ## Single effects -/

theorem received_emit_log (q : client) (s : server) (line : String) :
    received q (s.emit (Effect.log line)).trace = received q s.trace := by
  simp [server.emit, received_append, received]

theorem received_emit_close (q : client) (s : server) (c : client) :
    received q (s.emit (Effect.close c)).trace = received q s.trace := by
  simp [server.emit, received_append, received]

theorem received_emit_goRead (q : client) (s : server) (c : client) :
    received q (s.emit (Effect.goRead c)).trace = received q s.trace := by
  simp [server.emit, received_append, received]

theorem writes_emit_log (s : server) (line : String) :
    writes (s.emit (Effect.log line)).trace = writes s.trace := by
  simp [server.emit, writes_append, writes]

theorem closed_emit_log (s : server) (line : String) :
    closed (s.emit (Effect.log line)).trace = closed s.trace := by
  simp [server.emit, closed_append, closed]

theorem emit_clients (s : server) (e : Effect) : (s.emit e).clients = s.clients := rfl

/-! ## The cases of the loop -/

theorem step_msgRcv_clients (w : World) (s : server) (text : String) :
    (step w s (Event.msgRcv text)).clients = s.clients := by
  simp [step, broadcast_clients, emit_clients]

theorem step_msgRcv_received (w : World) (s : server) (text : String) (q : client) :
    received q (step w s (Event.msgRcv text)).trace
      = received q s.trace ++ List.replicate (s.clients.values.count q) text := by
  simp [step, broadcast_received_count, received_emit_log, emit_clients]

theorem step_msgRcv_closed (w : World) (s : server) (text : String) :
    closed (step w s (Event.msgRcv text)).trace = closed s.trace := by
  simp [step, broadcast_closed, closed_emit_log]

theorem step_disconnect_clients (w : World) (s : server) (c : client) :
    (step w s (Event.disconnect c)).clients = s.clients.delete c.getName := by
  simp [step, broadcast_clients, emit_clients]

theorem step_disconnect_closed (w : World) (s : server) (c : client) :
    closed (step w s (Event.disconnect c)).trace = closed s.trace ++ [c] := by
  simp [step, server.emit, closed_append, closed, broadcast_closed]

theorem step_disconnect_received (w : World) (s : server) (c q : client) :
    received q (step w s (Event.disconnect c)).trace
      = received q s.trace ++ List.replicate (s.clients.values.count q) (leftNotice c.getName) := by
  simp only [step, received_emit_close]
  rw [broadcast_received_count, received_emit_log, emit_clients]

theorem step_newConn_clients (w : World) (s : server) (c : client) :
    (step w s (Event.newConn c)).clients = s.clients.set c.getName c := by
  simp [step, addClient, broadcast_clients, emit_clients]

theorem step_newConn_closed (w : World) (s : server) (c : client) :
    closed (step w s (Event.newConn c)).trace = closed s.trace := by
  simp [step, addClient, server.emit, closed_append, closed, broadcast_closed]

theorem step_newConn_received (w : World) (s : server) (c q : client) :
    received q (step w s (Event.newConn c)).trace
      = received q s.trace ++ (if c = q then [chatHelp] else [])
        ++ List.replicate ((s.clients.set c.getName c).values.count q) (joinNotice c.getName) := by
  simp only [step, addClient, received_emit_goRead]
  rw [broadcast_received_count]
  by_cases h : c = q <;> simp [server.emit, received_append, received, h]

/-! ## The loop over an event sequence -/

theorem hub_snoc (w : World) (es : List Event) (e : Event) (s : server) :
    hub w (es ++ [e]) s = step w (hub w es s) e := by
  simp [hub, List.foldl_append]

theorem hub_cons (w : World) (e : Event) (es : List Event) (s : server) :
    hub w (e :: es) s = hub w es (step w s e) := rfl

theorem arrivals_append (a b : List Event) : arrivals (a ++ b) = arrivals a ++ arrivals b := by
  induction a with
  | nil => rfl
  | cons e rest ih => cases e <;> simp [arrivals, ih]

theorem noDeparture_snoc (es : List Event) (e : Event) (h : noDeparture (es ++ [e]) = true) :
    noDeparture es = true ∧ ∀ c : client, e ≠ Event.disconnect c := by
  induction es with
  | nil => cases e <;> simp_all [noDeparture]
  | cons e' rest ih => cases e' <;> simp_all [noDeparture]

theorem lastNamed_snoc (n : String) (cs : List client) (c : client) :
    lastNamed n (cs ++ [c]) = if c.getName = n then some c else lastNamed n cs := by
  induction cs with
  | nil => by_cases h : c.getName = n <;> simp [lastNamed, h]
  | cons c' rest ih =>
    show (match lastNamed n (rest ++ [c]) with
      | some c1 => some c1
      | none => if c'.getName = n then some c' else none)
      = if c.getName = n then some c else lastNamed n (c' :: rest)
    rw [ih]
    simp only [lastNamed]
    by_cases h : c.getName = n
    · simp [h]
    · simp [h]

theorem lastNamed_eq_none (n : String) (cs : List client) :
    lastNamed n cs = none ↔ n ∉ cs.map client.getName := by
  induction cs with
  | nil => simp [lastNamed]
  | cons c rest ih =>
    simp only [lastNamed, List.map_cons, List.mem_cons, not_or]
    cases hl : lastNamed n rest with
    | some c' =>
      have : ¬ (n ∉ rest.map client.getName) := fun hn => by
        rw [ih.mpr hn] at hl; cases hl
      constructor
      · intro h; cases h
      · intro h; exact absurd h.2 this
    | none =>
      have hn := ih.mp hl
      by_cases h : c.getName = n
      · simp [h]
      · have h2 : ¬ n = c.getName := fun e => h e.symm
        simp [h, h2, hn]

theorem Registry.get?_delete_ne (m : Registry) {k n : String} (h : k ≠ n) :
    (m.delete k).get? n = m.get? n := by
  induction m with
  | nil => rfl
  | cons e rest ih =>
    obtain ⟨k', v⟩ := e
    unfold Registry.delete at ih ⊢
    by_cases hk : k' = k
    · have hn : ¬ k' = n := fun e => h (hk ▸ e)
      simp [Registry.get?, hk, ih, h]
    · by_cases hn : k' = n
      · subst hn
        simp [Registry.get?, hk]
      · simp [Registry.get?, hk, hn, ih]

theorem Registry.get?_set (m : Registry) (k n : String) (v : client) :
    (m.set k v).get? n = if k = n then some v else m.get? n := by
  unfold Registry.set
  by_cases h : k = n
  · simp [Registry.get?, h]
  · simp [Registry.get?, h, Registry.get?_delete_ne m h]

theorem step_wf (w : World) (s : server) (e : Event) (h : s.clients.WF) :
    (step w s e).clients.WF := by
  cases e with
  | newConn c => rw [step_newConn_clients]; exact h.set c
  | msgRcv msg => rw [step_msgRcv_clients]; exact h
  | disconnect c => rw [step_disconnect_clients]; exact h.delete _

theorem hub_wf (w : World) (es : List Event) (s : server) (h : s.clients.WF) :
    (hub w es s).clients.WF := by
  induction es generalizing s with
  | nil => exact h
  | cons e rest ih => exact ih _ (step_wf w s e h)

theorem hub_messages_clients (w : World) (texts : List String) (s : server) :
    (hub w (texts.map Event.msgRcv) s).clients = s.clients := by
  induction texts generalizing s with
  | nil => rfl
  | cons t rest ih => rw [List.map_cons, hub_cons, ih, step_msgRcv_clients]

theorem hub_messages_closed (w : World) (texts : List String) (s : server) :
    closed (hub w (texts.map Event.msgRcv) s).trace = closed s.trace := by
  induction texts generalizing s with
  | nil => rfl
  | cons t rest ih => rw [List.map_cons, hub_cons, ih, step_msgRcv_closed]

/-- The registry built by arrivals and messages from an empty registry. -/
theorem hub_arrivals_get? (w : World) (es : List Event) (s0 : server) (h0 : s0.clients = [])
    (hnd : noDeparture es = true) (n : String) :
    (hub w es s0).clients.get? n = lastNamed n (arrivals es) := by
  induction es using List.reverseRecOn with
  | nil => simp [hub, h0, Registry.get?, arrivals, lastNamed]
  | append_singleton es e ih =>
    obtain ⟨hes, hne⟩ := noDeparture_snoc es e hnd
    rw [hub_snoc, arrivals_append]
    cases e with
    | newConn c =>
      rw [step_newConn_clients, Registry.get?_set, ih hes]
      simp [arrivals, lastNamed_snoc]
    | msgRcv msg =>
      rw [step_msgRcv_clients, ih hes]
      simp [arrivals]
    | disconnect c => exact absurd rfl (hne c)

/-- Closed participants stay out of the registry along an event sequence in which nobody
arrives after its departure. -/
theorem hub_closed_not_registered (w : World) (es : List Event) (s : server)
    (hwf : s.clients.WF)
    (hc : ∀ c ∈ closed s.trace, c ∉ s.clients.values ∧ c ∉ arrivals es)
    (hes : noArrivalAfterDeparture es) :
    ∀ c ∈ closed (hub w es s).trace, c ∉ (hub w es s).clients.values := by
  induction es generalizing s with
  | nil => exact fun c h => (hc c h).1
  | cons e rest ih =>
    rw [hub_cons]
    refine ih (step w s e) (step_wf w s e hwf) ?_ ?_
    · intro c hcl
      cases e with
      | newConn p =>
        rw [step_newConn_closed] at hcl
        obtain ⟨h1, h2⟩ := hc c hcl
        have h3 : c ≠ p ∧ c ∉ arrivals rest := by simpa [arrivals] using h2
        refine ⟨?_, h3.2⟩
        rw [step_newConn_clients, hwf.mem_values_set]
        rintro (h | h)
        · exact h3.1 h
        · exact h1 h.1
      | msgRcv msg =>
        rw [step_msgRcv_closed] at hcl
        rw [step_msgRcv_clients]
        exact hc c hcl
      | disconnect p =>
        rw [step_disconnect_closed, List.mem_append, List.mem_singleton] at hcl
        rw [step_disconnect_clients, hwf.mem_values_delete]
        rcases hcl with hcl | rfl
        · obtain ⟨h1, h2⟩ := hc c hcl
          exact ⟨fun h => h1 h.1, h2⟩
        · exact ⟨fun h => h.2 rfl, hes.1⟩
    · cases e with
      | newConn p => exact hes
      | msgRcv msg => exact hes
      | disconnect p => exact hes.2

theorem hub_append (w : World) (a b : List Event) (s : server) :
    hub w (a ++ b) s = hub w b (hub w a s) := by
  simp [hub, List.foldl_append]

/-- An event that is no arrival and no departure under the name `n` leaves the entry of `n`. -/
theorem step_get?_of_not_touches (w : World) (s : server) (e : Event) (n : String)
    (h : touchesName n e = false) : (step w s e).clients.get? n = s.clients.get? n := by
  cases e with
  | newConn c =>
    have hc : ¬ c.getName = n := by simpa [touchesName] using h
    rw [step_newConn_clients, Registry.get?_set, if_neg hc]
  | msgRcv msg => rw [step_msgRcv_clients]
  | disconnect c =>
    have hc : c.getName ≠ n := by simpa [touchesName] using h
    rw [step_disconnect_clients, Registry.get?_delete_ne _ hc]

theorem hub_get?_of_not_touches (w : World) (es : List Event) (s : server) (n : String)
    (h : ∀ e ∈ es, touchesName n e = false) : (hub w es s).clients.get? n = s.clients.get? n := by
  induction es generalizing s with
  | nil => rfl
  | cons e rest ih =>
    rw [hub_cons, ih _ (fun e' he' => h e' (List.mem_cons_of_mem _ he')),
      step_get?_of_not_touches w s e n (h e (List.mem_cons_self _ _))]

/-- An event that is no arrival and no departure under the name of `q` does not close `q`. -/
theorem step_closed_of_not_touches (w : World) (s : server) (e : Event) (q : client)
    (h : touchesName q.getName e = false) (hq : q ∈ closed (step w s e).trace) :
    q ∈ closed s.trace := by
  cases e with
  | newConn c => rw [step_newConn_closed] at hq; exact hq
  | msgRcv msg => rw [step_msgRcv_closed] at hq; exact hq
  | disconnect c =>
    rw [step_disconnect_closed, List.mem_append, List.mem_singleton] at hq
    rcases hq with hq | rfl
    · exact hq
    · simp [touchesName] at h

theorem hub_closed_of_not_touches (w : World) (es : List Event) (s : server) (q : client)
    (h : ∀ e ∈ es, touchesName q.getName e = false) (hq : q ∈ closed (hub w es s).trace) :
    q ∈ closed s.trace := by
  induction es generalizing s with
  | nil => exact hq
  | cons e rest ih =>
    rw [hub_cons] at hq
    exact step_closed_of_not_touches w s e q (h e (List.mem_cons_self _ _))
      (ih _ (fun e' he' => h e' (List.mem_cons_of_mem _ he')) hq)

/-- Only its own arrival makes an unregistered participant a value of the registry. -/
theorem hub_not_mem_values (w : World) (es : List Event) (s : server) (q : client)
    (hwf : s.clients.WF) (hq : q ∉ s.clients.values) (he : q ∉ arrivals es) :
    q ∉ (hub w es s).clients.values := by
  induction es generalizing s with
  | nil => exact hq
  | cons e rest ih =>
    rw [hub_cons]
    cases e with
    | newConn c =>
      have hc : q ≠ c ∧ q ∉ arrivals rest := by simpa [arrivals] using he
      refine ih _ (step_wf w s _ hwf) ?_ hc.2
      rw [step_newConn_clients, hwf.mem_values_set]
      rintro (h | h)
      · exact hc.1 h
      · exact hq h.1
    | msgRcv msg =>
      refine ih _ (step_wf w s _ hwf) ?_ he
      rw [step_msgRcv_clients]; exact hq
    | disconnect c =>
      refine ih _ (step_wf w s _ hwf) ?_ he
      rw [step_disconnect_clients, hwf.mem_values_delete]
      exact fun h => hq h.1

/-! ## Claims -/

/-- C1: processing `Message(text)` (the `msgRcv` case) leaves the registry as it is and writes
`text`, unmodified, once for each registry entry and nothing else, so the number of deliveries
is the registry size; in a well-formed registry (every participant under its own name) each
registered participant, whoever sent the text, receives `text` exactly once and nobody else
receives anything. -/
theorem message_reaches_each_registered_once (w : World) (s : server) (text : String) :
    (step w s (Event.msgRcv text)).clients = s.clients ∧
    (∃ order : Registry, order.Perm s.clients ∧
      writes (step w s (Event.msgRcv text)).trace
        = writes s.trace ++ order.map (fun e => (e.2, text))) ∧
    (writes (step w s (Event.msgRcv text)).trace).length
        = (writes s.trace).length + s.clients.length ∧
    (s.clients.WF → ∀ c : client,
      received c (step w s (Event.msgRcv text)).trace
        = received c s.trace ++ (if c ∈ s.clients.values then [text] else [])) := by
  have hw : ∃ order : Registry, order.Perm s.clients ∧
      writes (step w s (Event.msgRcv text)).trace
        = writes s.trace ++ order.map (fun e => (e.2, text)) := by
    obtain ⟨order, hp, he⟩ :=
      broadcast_writes w (s.emit (Effect.log (logEntry ("Message received: " ++ text)))) text
    exact ⟨order, hp, by rw [writes_emit_log] at he; exact he⟩
  refine ⟨step_msgRcv_clients w s text, hw, ?_, ?_⟩
  · obtain ⟨order, hp, he⟩ := hw
    rw [he, List.length_append, List.length_map, hp.length_eq]
  · intro hwf c
    rw [step_msgRcv_received, hwf.count_values]
    by_cases hc : c ∈ s.clients.values <;> simp [hc]

/-- Witness of C1: with `alice` and `bob` registered and the writes to `bob` failing, the message `hi` is written once to each of them and not to an unregistered participant. -/
theorem message_reaches_each_registered_once_witness :
    aliceAndBob.clients.WF ∧
    received alice (step lossyWorld aliceAndBob (Event.msgRcv "hi")).trace = ["hi"] ∧
    received bob (step lossyWorld aliceAndBob (Event.msgRcv "hi")).trace = ["hi"] ∧
    received carl1 (step lossyWorld aliceAndBob (Event.msgRcv "hi")).trace = [] :=
  have hwf : aliceAndBob.clients.WF := by decide
  have h := (message_reaches_each_registered_once lossyWorld aliceAndBob "hi").2.2.2 hwf
  ⟨hwf, (h alice).trans (by decide), (h bob).trans (by decide), (h carl1).trans (by decide)⟩

/-- C6: whatever writes fail, `broadcast` writes the text once for each registry entry (a
failure stops nothing), logs one entry `Broadcast error:  {error}` for each failed write, in
the order of the failures, leaves the registry as it was and calls `close` on nobody; when the
participants whose write fails are given by `fails`, the failed writes and the logged entries
are exactly those of the registered participants in `fails`. -/
theorem broadcast_survives_failed_writes (w : World) (s : server) (text : String) :
    (w.rangeOrder s.trace.length s.clients).Perm s.clients ∧
    writes (broadcast w s text).trace
      = writes s.trace ++ (w.rangeOrder s.trace.length s.clients).map (fun e => (e.2, text)) ∧
    (∃ errs : List String,
      writeFailures (broadcast w s text).trace = writeFailures s.trace ++ errs ∧
      logged (broadcast w s text).trace
        = logged s.trace ++ errs.map (fun e => "Broadcast error:  " ++ e ++ "\n")) ∧
    (∀ fails : client → Option String,
      (∀ (t : Nat) (c : client), w.writeErr t c text = fails c) →
      writeFailures (broadcast w s text).trace
        = writeFailures s.trace
          ++ (w.rangeOrder s.trace.length s.clients).filterMap (fun e => fails e.2) ∧
      logged (broadcast w s text).trace
        = logged s.trace
          ++ ((w.rangeOrder s.trace.length s.clients).filterMap (fun e => fails e.2)).map
              (fun e => "Broadcast error:  " ++ e ++ "\n")) ∧
    (broadcast w s text).clients = s.clients ∧
    closed (broadcast w s text).trace = closed s.trace :=
  ⟨w.range_perm _ _, fold_writes w text _ s, broadcast_logged w s text,
    fun fails hst => fold_failures w text fails hst _ s,
    broadcast_clients w s text, broadcast_closed w s text⟩

/-- Witness of C6: with `alice` and `bob` registered and every write to `bob` failing, the one
failed write of a broadcast is the one to `bob`, and the one entry logged is its
`Broadcast error` line. -/
theorem broadcast_survives_failed_writes_witness :
    (∀ (t : Nat) (c : client), lossyWorld.writeErr t c "hi"
      = (fun c : client => if c.conn = 2 then some "broken pipe" else none) c) ∧
    writeFailures (broadcast lossyWorld aliceAndBob "hi").trace = ["broken pipe"] ∧
    logged (broadcast lossyWorld aliceAndBob "hi").trace = ["Broadcast error:  broken pipe\n"] :=
  have h := (broadcast_survives_failed_writes lossyWorld aliceAndBob "hi").2.2.2.1
    (fun c : client => if c.conn = 2 then some "broken pipe" else none) (fun _ _ => rfl)
  ⟨fun _ _ => rfl, h.1.trans (by decide), h.2.trans (by decide)⟩

/-- C7: when the name of `p` is no key of the registry, processing `Departure(p)` (a total
function: it cannot fail) leaves the registry as it is, and so does processing it a second
time; `close` is called on `p` each time. -/
theorem departure_of_unregistered_name (w : World) (s : server) (p : client)
    (h : p.getName ∉ s.clients.keys) :
    (step w s (Event.disconnect p)).clients = s.clients ∧
    (step w (step w s (Event.disconnect p)) (Event.disconnect p)).clients
      = (step w s (Event.disconnect p)).clients ∧
    closed (step w s (Event.disconnect p)).trace = closed s.trace ++ [p] := by
  have h1 : (step w s (Event.disconnect p)).clients = s.clients := by
    rw [step_disconnect_clients, Registry.delete_of_not_mem h]
  refine ⟨h1, ?_, step_disconnect_closed w s p⟩
  rw [step_disconnect_clients, h1, Registry.delete_of_not_mem h]

/-- Witness of C7: the departure of an unregistered `carl` leaves `alice` and `bob` registered. -/
theorem departure_of_unregistered_name_witness :
    carl1.getName ∉ aliceAndBob.clients.keys ∧
    (step lossyWorld aliceAndBob (Event.disconnect carl1)).clients = aliceAndBob.clients :=
  ⟨by decide, (departure_of_unregistered_name lossyWorld aliceAndBob carl1 (by decide)).1⟩

/-- C4: in a well-formed registry that holds `p` under its name, processing `Departure(p)`
writes the notice `(chatbot): user {name} left the chat` (as a line, with its newline) once to
every registered participant, removes the entry of the name of `p` and no other entry, and ends
with `close` on `p`; a `Message(text)` processed afterwards is written once to each of the
remaining participants and not to `p`. -/
theorem departure_notifies_removes_closes (w : World) (s : server) (p : client)
    (hwf : s.clients.WF) (hp : (p.getName, p) ∈ s.clients) :
    (∀ q : client, q ∈ s.clients.values →
      received q (step w s (Event.disconnect p)).trace
        = received q s.trace ++ [leftNotice p.getName]) ∧
    leftNotice p.getName = "(chatbot): user " ++ p.getName ++ " left the chat" ++ "\n" ∧
    p.getName ∉ (step w s (Event.disconnect p)).clients.keys ∧
    (∀ e : String × client,
      e ∈ (step w s (Event.disconnect p)).clients ↔ e ∈ s.clients ∧ e.1 ≠ p.getName) ∧
    (∃ pre : List Effect,
      (step w s (Event.disconnect p)).trace = pre ++ [Effect.close p] ∧
      closed pre = closed s.trace) ∧
    (∀ (text : String) (q : client),
      received q (step w (step w s (Event.disconnect p)) (Event.msgRcv text)).trace
        = received q (step w s (Event.disconnect p)).trace
          ++ (if q ∈ s.clients.values ∧ q ≠ p then [text] else [])) := by
  have hpv : p ∈ s.clients.values := List.mem_map_of_mem Prod.snd hp
  refine ⟨?_, leftNotice_eq _, ?_, ?_, ?_, ?_⟩
  · intro q hq
    rw [step_disconnect_received, hwf.count_values, if_pos hq]
    rfl
  · rw [step_disconnect_clients]
    exact Registry.not_mem_keys_delete _ _
  · intro e
    rw [step_disconnect_clients]
    exact Registry.mem_delete
  · refine ⟨(broadcast w (s.emit (Effect.log (logEntry ("Disconnected user " ++ p.getName
      ++ "\n")))) (leftNotice p.getName)).trace, rfl, ?_⟩
    rw [broadcast_closed, closed_emit_log]
  · intro text q
    rw [step_msgRcv_received, step_disconnect_clients, (hwf.delete _).count_values]
    have hiff : q ∈ (s.clients.delete p.getName).values ↔ q ∈ s.clients.values ∧ q ≠ p := by
      rw [hwf.mem_values_delete]
      constructor
      · rintro ⟨hq, hn⟩
        exact ⟨hq, fun e => hn (e ▸ rfl)⟩
      · rintro ⟨hq, hn⟩
        exact ⟨hq, fun e => hn (hwf.eq_of_getName_eq hpv hq e)⟩
    by_cases hq : q ∈ s.clients.values ∧ q ≠ p
    · simp [hiff.mpr hq, hq]
    · have : q ∉ (s.clients.delete p.getName).values := fun hm => hq (hiff.mp hm)
      simp only [this, hq, if_false, List.replicate_zero]

/-- Witness of C4: when `alice` departs, `bob` receives the notice and is the only entry left. -/
theorem departure_notifies_removes_closes_witness :
    aliceAndBob.clients.WF ∧ (alice.getName, alice) ∈ aliceAndBob.clients ∧
    received bob (step lossyWorld aliceAndBob (Event.disconnect alice)).trace
      = ["(chatbot): user alice left the chat\n"] ∧
    (step lossyWorld aliceAndBob (Event.disconnect alice)).clients = [("bob", bob)] :=
  have hwf : aliceAndBob.clients.WF := by decide
  have hp : (alice.getName, alice) ∈ aliceAndBob.clients := by decide
  ⟨hwf, hp,
    ((departure_notifies_removes_closes lossyWorld aliceAndBob alice hwf hp).1 bob
      (by decide)).trans (by decide),
    by decide⟩

/-- C5 as stated fails: with the first `carl` registered, the arrival of a second `carl`
writes nothing to the first one, who is another participant in the registry. -/
theorem arrival_skips_superseded_participant :
    onlyCarl.clients.WF ∧ carl1 ∈ onlyCarl.clients.values ∧ carl1 ≠ carl2 ∧
    received carl1 (step quietWorld onlyCarl (Event.newConn carl2)).trace = [] ∧
    received carl1 (step quietWorld onlyCarl (Event.newConn carl2)).trace
      ≠ received carl1 onlyCarl.trace ++ [joinNotice carl2.getName] := by
  decide

/-- C5, amended: in a well-formed registry, processing `Arrival(p)` writes to `p` exactly the
help banner and then the join notice `(chatbot): New user {name} has joined.` (as a line);
every other registered participant whose name differs from the name of `p` receives exactly
the join notice; every other participant (one registered under the name of `p`, who is
replaced before the broadcast, or one not registered) receives nothing; the help banner is not
the join notice, so it goes to `p` alone. -/
theorem arrival_help_then_join (w : World) (s : server) (p : client) (hwf : s.clients.WF) :
    received p (step w s (Event.newConn p)).trace
      = received p s.trace ++ [chatHelp, joinNotice p.getName] ∧
    (∀ q : client, q ≠ p →
      received q (step w s (Event.newConn p)).trace
        = received q s.trace
          ++ (if q ∈ s.clients.values ∧ q.getName ≠ p.getName
              then [joinNotice p.getName] else [])) ∧
    chatHelp ≠ joinNotice p.getName ∧
    joinNotice p.getName = "(chatbot): " ++ ("New user " ++ p.getName ++ " has joined.") ++ "\n" := by
  refine ⟨?_, ?_, chatHelp_ne_joinNotice _, joinNotice_eq _⟩
  · rw [step_newConn_received, (hwf.set p).count_values,
      if_pos ((hwf.mem_values_set p p).mpr (Or.inl rfl))]
    simp
  · intro q hq
    rw [step_newConn_received, (hwf.set p).count_values]
    have hpq : ¬ p = q := fun e => hq e.symm
    have hiff := hwf.mem_values_set p q
    by_cases hc : q ∈ s.clients.values ∧ q.getName ≠ p.getName
    · simp [hpq, hiff.mpr (Or.inr hc), hc]
    · have : q ∉ (s.clients.set p.getName p).values := fun hm =>
        (hiff.mp hm).elim hq hc
      simp only [this, hc, hpq, if_false, List.replicate_zero, List.append_nil]

/-- Witness of C5, amended: an arriving `carl` receives the help banner, then its join notice. -/
theorem arrival_help_then_join_witness :
    aliceAndBob.clients.WF ∧
    received carl1 (step lossyWorld aliceAndBob (Event.newConn carl1)).trace
      = [chatHelp, "(chatbot): New user carl has joined.\n"] :=
  have hwf : aliceAndBob.clients.WF := by decide
  ⟨hwf, ((arrival_help_then_join lossyWorld aliceAndBob carl1 hwf).1).trans (by decide)⟩

/-- C2: from an empty registry, after any sequence of arrivals and messages (no departure),
the keys of the registry are pairwise distinct and are exactly the names of the arrived
participants, every name maps to the last participant that arrived under it, and the size is
the number of distinct names; with pairwise distinct names it is the number of arrivals. -/
theorem arrivals_build_registry (w : World) (es : List Event) (s0 : server)
    (h0 : s0.clients = []) (hnd : noDeparture es = true) :
    (hub w es s0).clients.keys.Nodup ∧
    (∀ n : String, n ∈ (hub w es s0).clients.keys ↔ n ∈ (arrivals es).map client.getName) ∧
    (∀ n : String, (hub w es s0).clients.get? n = lastNamed n (arrivals es)) ∧
    (hub w es s0).clients.length = ((arrivals es).map client.getName).dedup.length ∧
    (((arrivals es).map client.getName).Nodup →
      (hub w es s0).clients.length = (arrivals es).length) := by
  have hwf : (hub w es s0).clients.WF :=
    hub_wf w es s0 (by rw [h0]; exact ⟨List.nodup_nil, fun e he => absurd he (List.not_mem_nil e)⟩)
  have hget := hub_arrivals_get? w es s0 h0 hnd
  have hmem : ∀ n : String,
      n ∈ (hub w es s0).clients.keys ↔ n ∈ (arrivals es).map client.getName := by
    intro n
    have h1 := Registry.get?_eq_none (m := (hub w es s0).clients) n
    have h2 := lastNamed_eq_none n (arrivals es)
    rw [hget n] at h1
    exact not_iff_not.mp (h1.symm.trans h2)
  have hlen : (hub w es s0).clients.length
      = ((arrivals es).map client.getName).dedup.length := by
    have hk : (hub w es s0).clients.length = (hub w es s0).clients.keys.length := by
      simp [Registry.keys]
    rw [hk, ← List.toFinset_card_of_nodup hwf.1, ← List.card_toFinset]
    congr 1
    ext n
    simp only [List.mem_toFinset]
    exact hmem n
  refine ⟨hwf.1, hmem, hget, hlen, ?_⟩
  intro hnodup
  rw [hlen, hnodup.dedup, List.length_map]

/-- Witness of C2: two arrivals named `carl`, a message in between, leave one entry, the second. -/
theorem arrivals_build_registry_witness :
    (started ":9000").clients = [] ∧
    noDeparture [Event.newConn carl1, Event.msgRcv "hi", Event.newConn carl2] = true ∧
    (hub lossyWorld [Event.newConn carl1, Event.msgRcv "hi", Event.newConn carl2]
      (started ":9000")).clients.get? "carl" = some carl2 ∧
    (hub lossyWorld [Event.newConn carl1, Event.msgRcv "hi", Event.newConn carl2]
      (started ":9000")).clients.length = 1 :=
  have h := arrivals_build_registry lossyWorld
    [Event.newConn carl1, Event.msgRcv "hi", Event.newConn carl2] (started ":9000") rfl rfl
  ⟨rfl, rfl, (h.2.2.1 "carl").trans (by decide), h.2.2.2.1.trans (by decide)⟩

/-- C3 as stated fails: after the two `carl` arrive and the departure of the first one is
processed, the registry has no entry for `carl` and a message is not written to the second. -/
theorem departure_of_superseded_evicts_successor :
    carl1 ≠ carl2 ∧ carl1.getName = carl2.getName ∧
    (hub quietWorld [Event.newConn carl1, Event.newConn carl2, Event.disconnect carl1]
      (started ":9000")).clients.get? "carl" ≠ some carl2 ∧
    received carl2
      (hub quietWorld [Event.newConn carl1, Event.newConn carl2, Event.disconnect carl1,
        Event.msgRcv "hi"] (started ":9000")).trace
      = received carl2
        (hub quietWorld [Event.newConn carl1, Event.newConn carl2, Event.disconnect carl1]
          (started ":9000")).trace := by
  decide

/-- C3, amended: for distinct `p1`, `p2` of one name, after `Arrival(p1)`, `Arrival(p2)` and any
events `mid` that hold no arrival and no departure of a participant of that name, the registry
maps the name to `p2`, and a message is written once to `p2` and not to `p1`. Processing
`Departure(p1)` then removes the entry of the name, which is the entry of `p2`: the registry has
no entry for the name, `close` is called on `p1` and these events have not closed `p2`; and
after any further events `post` in which `p2` does not arrive, `p2` is no value of the registry
and a message is not written to `p2`. -/
theorem superseded_departure_removes_name (w : World) (s : server) (p1 p2 : client)
    (mid post : List Event) (hwf : s.clients.WF) (hne : p1 ≠ p2)
    (hn : p1.getName = p2.getName)
    (hmid : ∀ e ∈ mid, touchesName p2.getName e = false) (hpost : p2 ∉ arrivals post) :
    (hub w (Event.newConn p1 :: Event.newConn p2 :: mid) s).clients.get? p2.getName
      = some p2 ∧
    (∀ text : String,
      received p2 (hub w ((Event.newConn p1 :: Event.newConn p2 :: mid)
          ++ [Event.msgRcv text]) s).trace
        = received p2 (hub w (Event.newConn p1 :: Event.newConn p2 :: mid) s).trace
          ++ [text] ∧
      received p1 (hub w ((Event.newConn p1 :: Event.newConn p2 :: mid)
          ++ [Event.msgRcv text]) s).trace
        = received p1 (hub w (Event.newConn p1 :: Event.newConn p2 :: mid) s).trace) ∧
    (hub w ((Event.newConn p1 :: Event.newConn p2 :: mid)
        ++ [Event.disconnect p1]) s).clients.get? p2.getName = none ∧
    closed (hub w ((Event.newConn p1 :: Event.newConn p2 :: mid)
        ++ [Event.disconnect p1]) s).trace
      = closed (hub w (Event.newConn p1 :: Event.newConn p2 :: mid) s).trace ++ [p1] ∧
    (p2 ∈ closed (hub w ((Event.newConn p1 :: Event.newConn p2 :: mid)
        ++ [Event.disconnect p1]) s).trace → p2 ∈ closed s.trace) ∧
    p2 ∉ (hub w ((Event.newConn p1 :: Event.newConn p2 :: mid)
        ++ (Event.disconnect p1 :: post)) s).clients.values ∧
    (∀ text : String,
      received p2 (hub w (((Event.newConn p1 :: Event.newConn p2 :: mid)
          ++ (Event.disconnect p1 :: post)) ++ [Event.msgRcv text]) s).trace
        = received p2 (hub w ((Event.newConn p1 :: Event.newConn p2 :: mid)
          ++ (Event.disconnect p1 :: post)) s).trace) := by
  have hwfS : (hub w (Event.newConn p1 :: Event.newConn p2 :: mid) s).clients.WF :=
    hub_wf w _ s hwf
  have hget : (hub w (Event.newConn p1 :: Event.newConn p2 :: mid) s).clients.get? p2.getName
      = some p2 := by
    rw [hub_cons, hub_cons, hub_get?_of_not_touches w mid _ _ hmid, step_newConn_clients,
      Registry.get?_set, if_pos rfl]
  have hp2 : p2 ∈ (hub w (Event.newConn p1 :: Event.newConn p2 :: mid) s).clients.values :=
    List.mem_map_of_mem Prod.snd ((Registry.get?_eq_some hwfS.1 _ _).mp hget)
  have hp1 : p1 ∉ (hub w (Event.newConn p1 :: Event.newConn p2 :: mid) s).clients.values :=
    fun h => hne (hwfS.eq_of_getName_eq hp2 h hn)
  have hclosed : closed (hub w ((Event.newConn p1 :: Event.newConn p2 :: mid)
        ++ [Event.disconnect p1]) s).trace
      = closed (hub w (Event.newConn p1 :: Event.newConn p2 :: mid) s).trace ++ [p1] := by
    rw [hub_snoc, step_disconnect_closed]
  have hgone : p2 ∉ (hub w ((Event.newConn p1 :: Event.newConn p2 :: mid)
        ++ (Event.disconnect p1 :: post)) s).clients.values := by
    rw [hub_append, hub_cons]
    refine hub_not_mem_values w post _ p2 (step_wf w _ _ hwfS) ?_ hpost
    rw [step_disconnect_clients, hwfS.mem_values_delete]
    exact fun h => h.2 hn.symm
  refine ⟨hget, ?_, ?_, hclosed, ?_, hgone, ?_⟩
  · intro text
    rw [hub_snoc, step_msgRcv_received, step_msgRcv_received, hwfS.count_values,
      hwfS.count_values, if_pos hp2, if_neg hp1]
    simp
  · rw [hub_snoc, step_disconnect_clients, Registry.get?_eq_none, ← hn]
    exact Registry.not_mem_keys_delete _ _
  · intro h
    rw [hclosed, List.mem_append, List.mem_singleton] at h
    rcases h with h | h
    · rw [hub_cons, hub_cons] at h
      have h' := hub_closed_of_not_touches w mid _ p2 hmid h
      rw [step_newConn_closed, step_newConn_closed] at h'
      exact h'
    · exact absurd h.symm hne
  · intro text
    rw [hub_snoc, step_msgRcv_received, (hub_wf w _ s hwf).count_values, if_neg hgone]
    simp

/-- Witness of C3, amended: with a message, the arrival of `alice` and the departure of `bob`
in between, the departure of the superseded `carl` leaves no entry for `carl`. -/
theorem superseded_departure_removes_name_witness :
    onlyCarl.clients.WF ∧ carl1 ≠ carl2 ∧ carl1.getName = carl2.getName ∧
    (∀ e ∈ [Event.msgRcv "a", Event.newConn alice, Event.disconnect bob],
      touchesName carl2.getName e = false) ∧
    carl2 ∉ arrivals [Event.newConn carl1, Event.msgRcv "b"] ∧
    (hub lossyWorld ((Event.newConn carl1 :: Event.newConn carl2 ::
        [Event.msgRcv "a", Event.newConn alice, Event.disconnect bob])
        ++ [Event.disconnect carl1]) onlyCarl).clients.get? carl2.getName = none :=
  have hwf : onlyCarl.clients.WF := by decide
  have hne : carl1 ≠ carl2 := by decide
  have hmid : ∀ e ∈ [Event.msgRcv "a", Event.newConn alice, Event.disconnect bob],
      touchesName carl2.getName e = false := by decide
  have hpost : carl2 ∉ arrivals [Event.newConn carl1, Event.msgRcv "b"] := by decide
  ⟨hwf, hne, rfl, hmid, hpost,
    (superseded_departure_removes_name lossyWorld onlyCarl carl1 carl2
      [Event.msgRcv "a", Event.newConn alice, Event.disconnect bob]
      [Event.newConn carl1, Event.msgRcv "b"] hwf hne rfl hmid hpost).2.2.1⟩

/-- C8: in every state reached from the state in which `serve` enters its loop, by a sequence
of arrivals, messages and departures in which no participant arrives after its own departure
has been processed, no participant on which `close` has been called is a value of the
registry. -/
theorem closed_participants_are_not_registered (w : World) (port : String) (es : List Event)
    (hes : noArrivalAfterDeparture es) :
    ∀ c ∈ closed (hub w es (started port)).trace,
      c ∉ (hub w es (started port)).clients.values := by
  refine hub_closed_not_registered w es (started port) ?_ ?_ hes
  · exact ⟨List.nodup_nil, fun e he => absurd he (List.not_mem_nil e)⟩
  · intro c hc
    simp [started, server.emit, closed] at hc

/-- Witness of C8: after its departure `alice`, closed, is no value of the registry. -/
theorem closed_participants_are_not_registered_witness :
    noArrivalAfterDeparture [Event.newConn alice, Event.newConn carl1, Event.newConn carl2,
      Event.disconnect carl1, Event.msgRcv "hi", Event.disconnect alice] ∧
    alice ∉ (hub lossyWorld [Event.newConn alice, Event.newConn carl1, Event.newConn carl2,
      Event.disconnect carl1, Event.msgRcv "hi", Event.disconnect alice]
      (started ":9000")).clients.values :=
  have hes : noArrivalAfterDeparture [Event.newConn alice, Event.newConn carl1,
      Event.newConn carl2, Event.disconnect carl1, Event.msgRcv "hi",
      Event.disconnect alice] := by decide
  ⟨hes, closed_participants_are_not_registered lossyWorld ":9000" _ hes alice (by decide)⟩

/-- C9 fails on the code: the accept loop has no `continue` after logging a failed accept, so it
raises one client per call of `Accept`, failed or not; after a single failed accept it has
logged the error and sent `newTCPClient(nil)` on `newConn`. -/
theorem failed_accept_still_raises_client (newTCPClient : Option Nat → client)
    (results : List AcceptResult) (e : String) :
    raised (acceptLoop newTCPClient results) = results.map (fun r => newTCPClient r.conn) ∧
    acceptLoop newTCPClient [⟨none, some e⟩]
      = [AcceptEffect.log (e ++ "\n"), AcceptEffect.newConn (newTCPClient none)] := by
  refine ⟨?_, by simp [acceptLoop, logEntry_newline]⟩
  induction results with
  | nil => rfl
  | cons r rest ih =>
    obtain ⟨conn, err⟩ := r
    cases err <;> simp [acceptLoop, raised, ih]

end Chat
